import Mathlib

/-!
A shallow embedding of src/main.py (Creator Transcript Fetcher, v1.5.0):
the language-preference normalization, the discovery-first caption
selection of try_subs_with_discovery, the subtitle flattener
clean_srt_to_text, the in-memory expiring file store, and the HTTP
handlers health, get_file and transcript.  External collaborators
(yt-dlp, the network, the PDF renderer) appear as explicit parameters
and oracles.  Byte strings are modelled by Lean strings (the code only
moves them around and compares them); time.time() is modelled by a Nat
instant passed explicitly.
-/

namespace Vidalchemy

/-- Python ASCII whitespace, as accepted by str.strip and by re \s on the
inputs considered here. -/
def isWS (c : Char) : Bool :=
  c = ' ' || c = '\t' || c = '\n' || c = '\r' || c = '\x0b' || c = '\x0c'

/-- Python str.strip(): drop whitespace from both ends. -/
def pyStrip (l : List Char) : List Char :=
  ((l.dropWhile isWS).reverse.dropWhile isWS).reverse

/-- str.strip() lifted to String. -/
def pyStripStr (s : String) : String :=
  String.mk (pyStrip s.data)

/-- Python str.lower() (ASCII case folding suffices for language codes). -/
def lowerStr (s : String) : String :=
  String.mk (s.data.map Char.toLower)

/-- Python str.split(sep) for a one-character separator: splits at every
occurrence, keeping empty pieces. -/
def splitCharGo (sep : Char) (acc : List Char) : List Char → List (List Char)
  | [] => [acc.reverse]
  | c :: r =>
    if c = sep then acc.reverse :: splitCharGo sep [] r
    else splitCharGo sep (c :: acc) r

def splitChar (sep : Char) (l : List Char) : List (List Char) :=
  splitCharGo sep [] l

/-- The trimmed, non-empty comma-separated parts of the user language
string: `[p.strip() for p in user_langs.split(",") if p.strip()]`. -/
def langParts (user_langs : String) : List String :=
  (((splitChar ',' user_langs.data).map pyStrip).filter
    (fun p => !p.isEmpty)).map String.mk

/-- The inner helper broaden of normalize_langs:
`[v for v in variants if v not in parts]` (case-sensitive membership). -/
def broadenAdd (parts : List String) (variants : List String) : List String :=
  variants.filter (fun v => !parts.contains v)

/-- `"all" in [p.lower() for p in parts]`. -/
def hasAllCI (parts : List String) : Bool :=
  (parts.map lowerStr).contains "all"

/-- The final de-duplication loop of normalize_langs: keep the first
occurrence of each case-insensitive token, preserving order. -/
def dedupCIGo (seen : List String) : List String → List String
  | [] => []
  | p :: r =>
    if seen.contains (lowerStr p) then dedupCIGo seen r
    else p :: dedupCIGo (lowerStr p :: seen) r

/-- One of the four guarded `parts += broaden(...)` blocks of
normalize_langs. -/
def broadenStep (cond : Bool) (parts variants : List String) : List String :=
  if cond then parts ++ broadenAdd parts variants else parts

/-- The four broadening blocks of normalize_langs applied in source
order (each condition tests the lowered form of the original parts). -/
def broadened (user_langs : String) : List String :=
  let parts0 := langParts user_langs
  let lowered := parts0.map lowerStr
  let parts1 := broadenStep (lowered = ["nl"] || lowered = ["nl-nl"]) parts0 ["nl", "nl-NL", "*nl*"]
  let parts2 := broadenStep (lowered = ["fr"] || lowered = ["fr-fr"]) parts1 ["fr", "fr-FR", "*fr*"]
  let parts3 := broadenStep (lowered = ["de"] || lowered = ["de-de"]) parts2 ["de", "de-DE", "*de*"]
  broadenStep (lowered = ["es"] || lowered = ["es-es"]) parts3 ["es", "es-ES", "*es*"]

/-- The token stream of normalize_langs just before de-duplication:
broadened parts with the catch-all "all" appended when no token already
lowers to it. -/
def partsFull (user_langs : String) : List String :=
  if hasAllCI (broadened user_langs) then broadened user_langs
  else broadened user_langs ++ ["all"]

/-- normalize_langs from src/main.py: trim and split the request, broaden
a few common single-language requests, guarantee a final catch-all "all",
and de-duplicate case-insensitively keeping first occurrences. -/
def normalize_langs (user_langs : String) : List String :=
  if user_langs = "" then ["en", "en-US", "en-GB", "all"]
  else dedupCIGo [] (partsFull user_langs)

example : normalize_langs "nl" = ["nl", "nl-NL", "*nl*", "all"] := by decide
example : normalize_langs "nl-NL" = ["nl-NL", "nl", "*nl*", "all"] := by decide
example : normalize_langs "" = ["en", "en-US", "en-GB", "all"] := by decide
example : normalize_langs " en , EN ,fr" = ["en", "fr", "all"] := by decide
example : normalize_langs "ALL" = ["ALL"] := by decide

/-!
## clean_srt_to_text

The flattener first does `re.split(r"\n\s*\n", srt_text.strip())`.  A match
of that pattern is a newline whose following maximal whitespace run holds at
least one further newline; the greedy `\s*` makes the match extend to the
last newline of that run.  scanBL is that splitter as a single left-to-right
pass: mode none scans inside a piece; mode some (runBuf, sinceNL, flag)
scans a whitespace run entered at a newline, where runBuf is the run so far
(reversed), sinceNL the part after the most recent newline (reversed), and
flag records whether a second newline was seen (i.e. whether the run is a
match to cut at its last newline).
-/

def scanBL (mode : Option (List Char × List Char × Bool)) (out : List (List Char))
    (cur : List Char) : List Char → List (List Char)
  | [] =>
    match mode with
    | none => (cur.reverse :: out).reverse
    | some (runBuf, sinceNL, flag) =>
      if flag then (sinceNL.reverse :: cur.reverse :: out).reverse
      else ((runBuf ++ cur).reverse :: out).reverse
  | c :: rest =>
    match mode with
    | none =>
      if c = '\n' then scanBL (some (['\n'], [], false)) out cur rest
      else scanBL none out (c :: cur) rest
    | some (runBuf, sinceNL, flag) =>
      if c = '\n' then scanBL (some (c :: runBuf, [], true)) out cur rest
      else if isWS c then scanBL (some (c :: runBuf, c :: sinceNL, flag)) out cur rest
      else if flag then scanBL none (cur.reverse :: out) (c :: sinceNL) rest
      else scanBL none out (c :: (runBuf ++ cur)) rest

/-- `re.split(r"\n\s*\n", l)` (the input is stripped by the caller). -/
def splitBlankLines (l : List Char) : List (List Char) :=
  scanBL none [] [] l

/-- The part of a whitespace run strictly after its last newline. -/
def afterLastNL (run : List Char) : List Char :=
  (run.reverse.takeWhile (fun c => c ≠ '\n')).reverse

/-- `re.sub(r"^\s*\d+\s*\r?\n", "", blk)`: the pattern is anchored (no
re.M), so at most one match, at the start; after the digit run the greedy
trailing part reaches exactly through the last newline of the following
whitespace run (and fails when that run has no newline). -/
def dropLeadingIndex (l : List Char) : List Char :=
  let r1 := l.dropWhile isWS
  let ds := r1.takeWhile Char.isDigit
  if ds.isEmpty then l
  else
    let r2 := r1.dropWhile Char.isDigit
    let run := r2.takeWhile isWS
    if run.contains '\n' then afterLastNL run ++ r2.dropWhile isWS
    else l

/-- Exactly n re \d digits. -/
def expectDigits : Nat → List Char → Option (List Char)
  | 0, l => some l
  | _ + 1, [] => none
  | n + 1, c :: r => if c.isDigit then expectDigits n r else none

def expectChar (c : Char) : List Char → Option (List Char)
  | [] => none
  | d :: r => if d = c then some r else none

/-- The SRT timecode `\d{2}:\d{2}:\d{2},\d{3}`. -/
def expectTimecode (l : List Char) : Option (List Char) :=
  ((((((expectDigits 2 l).bind (expectChar ':')).bind
    (expectDigits 2)).bind (expectChar ':')).bind
    (expectDigits 2)).bind (expectChar ',')).bind (expectDigits 3)

/-- One attempt of ts_re at a line start: `^\s*` then the first timecode,
`\s*-->\s*`, the second timecode, then `.*$` up to the end of the line.
Returns the rest of the input after the match (the terminating newline is
not consumed). -/
def matchTS (l : List Char) : Option (List Char) :=
  match expectTimecode (l.dropWhile isWS) with
  | none => none
  | some r1 =>
    match r1.dropWhile isWS with
    | '-' :: '-' :: '>' :: r3 =>
      match expectTimecode (r3.dropWhile isWS) with
      | none => none
      | some r5 => some (r5.dropWhile (fun c => c ≠ '\n'))
    | _ => none

/-- `ts_re.sub("", blk2)` with re.M: try a match at every line start;
elsewhere copy characters.  Every step consumes at least one character, so
fuel length+1 never runs out. -/
def tsSubGo : Nat → Bool → List Char → List Char
  | 0, _, l => l
  | _ + 1, _, [] => []
  | fuel + 1, atStart, c :: rest =>
    if atStart then
      match matchTS (c :: rest) with
      | some r => tsSubGo fuel false r
      | none => c :: tsSubGo fuel (c = '\n') rest
    else c :: tsSubGo fuel (c = '\n') rest

def tsSub (l : List Char) : List Char :=
  tsSubGo (l.length + 1) true l

/-- `ts_re.search(blk2)`: the matched text of the first match. -/
def tsSearchGo : Nat → Bool → List Char → Option (List Char)
  | 0, _, _ => none
  | _ + 1, _, [] => none
  | fuel + 1, atStart, c :: rest =>
    if atStart then
      match matchTS (c :: rest) with
      | some r => some ((c :: rest).take ((c :: rest).length - r.length))
      | none => tsSearchGo fuel (c = '\n') rest
    else tsSearchGo fuel (c = '\n') rest

def tsSearch (l : List Char) : Option (List Char) :=
  tsSearchGo (l.length + 1) true l

/-- `split("-->")[0]`: everything before the first occurrence of the arrow. -/
def takeUntilArrow : List Char → List Char
  | [] => []
  | c :: r =>
    if c = '-' && (match r with | '-' :: '>' :: _ => true | _ => false) then []
    else c :: takeUntilArrow r

/-- `ts_match.group(0).split("-->")[0].strip().split(",")[0]`. -/
def startTsOf (m : List Char) : List Char :=
  (pyStrip (takeUntilArrow m)).takeWhile (fun c => c ≠ ',')

/-- `re.sub(r"\s+", " ", text)`. -/
def wsCollapseGo : Nat → List Char → List Char
  | 0, l => l
  | _ + 1, [] => []
  | fuel + 1, c :: r =>
    if isWS c then ' ' :: wsCollapseGo fuel (r.dropWhile isWS)
    else c :: wsCollapseGo fuel r

def wsCollapse (l : List Char) : List Char :=
  wsCollapseGo (l.length + 1) l

/-- The per-block body of the loop in clean_srt_to_text. -/
def processBlock (keep_ts : Bool) (blk : List Char) : Option (List Char) :=
  let blk2 := dropLeadingIndex blk
  let tsM := tsSearch blk2
  let text := pyStrip (wsCollapse (tsSub blk2))
  if text.isEmpty then none
  else if keep_ts then
    match tsM with
    | some m => some (startTsOf m ++ ' ' :: text)
    | none => some text
  else some text

/-- `sep.join(lines)`. -/
def joinSep (sep : Char) : List (List Char) → List Char
  | [] => []
  | [x] => x
  | x :: y :: ys => x ++ sep :: joinSep sep (y :: ys)

/-- re \w (ASCII). -/
def isWordChar (c : Char) : Bool :=
  c.isAlphanum || c = '_'

def lowerL (l : List Char) : List Char :=
  l.map Char.toLower

/-- The repetitions `(\s+\1\b)+` of the duplicate-word pattern: eat
whitespace followed by a complete word equal to w case-insensitively, as
often as possible.  Each repetition consumes at least two characters. -/
def eatRepsGo : Nat → List Char → List Char → List Char
  | 0, _, l => l
  | fuel + 1, w, l =>
    if (l.takeWhile isWS).isEmpty then l
    else
      let l2 := l.dropWhile isWS
      let w2 := l2.takeWhile isWordChar
      if lowerL w2 = lowerL w then eatRepsGo fuel w (l2.dropWhile isWordChar)
      else l

/-- `re.sub(r"\b(\w+)(\s+\1\b)+", r"\1", out, flags=re.IGNORECASE)`: since
`\w` and `\s` are disjoint, the first group is always the maximal word run
at a boundary, and a match replaces it together with its case-insensitive
immediate repetitions by the first occurrence. -/
def dupGo : Nat → List Char → List Char
  | 0, l => l
  | _ + 1, [] => []
  | fuel + 1, c :: r =>
    if isWordChar c then
      let w := (c :: r).takeWhile isWordChar
      let rest := (c :: r).dropWhile isWordChar
      w ++ dupGo fuel (eatRepsGo (rest.length + 1) w rest)
    else c :: dupGo fuel r

def dupCollapse (l : List Char) : List Char :=
  dupGo (l.length + 1) l

def isPunct (c : Char) : Bool :=
  c = ',' || c = '.' || c = ';' || c = ':' || c = '!' || c = '?'

/-- `re.sub(r"\s+([,.;:!?])", r"\1", out)`: a whitespace run directly
before one of the punctuation marks is dropped. -/
def punctGo : Nat → List Char → List Char
  | 0, l => l
  | _ + 1, [] => []
  | fuel + 1, c :: r =>
    if isWS c then
      let run := (c :: r).takeWhile isWS
      match (c :: r).dropWhile isWS with
      | [] => run
      | p :: rest2 =>
        if isPunct p then p :: punctGo fuel rest2
        else run ++ punctGo fuel (p :: rest2)
    else c :: punctGo fuel r

def punctFix (l : List Char) : List Char :=
  punctGo (l.length + 1) l

/-- clean_srt_to_text from src/main.py, on character lists. -/
def clean_chars (srt : List Char) (keep_ts : Bool) : List Char :=
  let blocks := splitBlankLines (pyStrip srt)
  let lines := blocks.filterMap (processBlock keep_ts)
  let out := if keep_ts then joinSep '\n' lines else joinSep ' ' lines
  punctFix (dupCollapse out)

/-- clean_srt_to_text from src/main.py. -/
def clean_srt_to_text (srt_text : String) (keep_ts : Bool) : String :=
  String.mk (clean_chars srt_text.data keep_ts)

example :
    clean_srt_to_text "00:00:01,000 --> 00:00:02,000\nHello hello\n" false = "Hello" := by
  decide

example :
    clean_srt_to_text "00:00:01.000 --> 00:00:02.000\nHello hello\n" false =
      "00:00:01.000 --> 00:00:02.000 Hello" := by
  decide

example :
    clean_srt_to_text
      "1\n00:00:01,000 --> 00:00:02,000\nHello hello\n\n2\n00:00:03,000 --> 00:00:04,500\nworld , yes\n"
      false = "Hello world, yes" := by
  decide

example :
    clean_srt_to_text
      "1\n00:00:01,000 --> 00:00:02,000\nHello hello\n\n2\n00:00:03,000 --> 00:00:04,500\nworld , yes\n"
      true = "00:00:01 Hello\n00:00:03 world, yes" := by
  decide

/-!
## The in-memory expiring file store and the simple routes
-/

/-- One value of the token dictionary: content, mime, filename, exp. -/
structure FileEntry where
  content : String
  mime : String
  filename : String
  exp : Nat
deriving DecidableEq

/-- The module-level token dictionary, as an association list. -/
abbrev Store := List (String × FileEntry)

/-- Python-truthiness or on strings: a or b. -/
def pyOr (a b : String) : String :=
  if a = "" then b else a

/-- store_file: insert the entry under the given (randomly drawn) token
with exp = now + FILE_TTL_SECONDS; dictionary assignment overwrites. -/
def store_file (σ : Store) (token content mime filename : String)
    (now ttl : Nat) : Store :=
  (token, ⟨content, mime, filename, now + ttl⟩) :: σ.filter (fun p => p.1 != token)

/-- cleanup_files: drop every entry whose exp is strictly below now. -/
def cleanup_files (now : Nat) (σ : Store) : Store :=
  σ.filter (fun p => !decide (p.2.exp < now))

/-- FILE_STORE.get(token). -/
def storeGet (σ : Store) (token : String) : Option FileEntry :=
  σ.lookup token

/-- abs_url: urljoin(PUBLIC_BASE_URL + "/", path.lstrip("/")); with the
absolute https base URLs this deployment uses, urljoin is plain
concatenation; an empty base falls back to the raw path. -/
def abs_url (base path : String) : String :=
  if base = "" then path
  else base ++ "/" ++ String.mk (path.data.dropWhile (fun c => c = '/'))

/-- The Response built by get_file (content, media type and headers). -/
structure FileResponse where
  content : String
  media_type : String
  contentType : String
  contentDisposition : String
  cacheControl : String
deriving DecidableEq

/-- GET file(token): purge, look up, 404 when absent or expired. -/
def get_file (token : String) (now : Nat) (σ : Store) :
    Except (Nat × String) FileResponse × Store :=
  let σ1 := cleanup_files now σ
  match storeGet σ1 token with
  | none => (.error (404, "File expired or not found."), σ1)
  | some item =>
    if item.exp < now then (.error (404, "File expired or not found."), σ1)
    else
      (.ok ⟨item.content, item.mime, item.mime,
        "attachment; filename=\"" ++ item.filename ++ "\"", "no-store"⟩, σ1)

structure HealthResp where
  ok : Bool
  time : Nat
  ttl_seconds : Nat
  base : String
deriving DecidableEq

/-- GET health: purge, then report liveness, the TTL and the base. -/
def health (now ttl : Nat) (base : String) (σ : Store) : HealthResp × Store :=
  (⟨true, now, ttl, if base = "" then "(relative links)" else base⟩,
   cleanup_files now σ)

/-!
## Caption catalog, discovery and try_subs_with_discovery

yt-dlp is an external collaborator: its per-attempt availability is an
oracle fetchOk (network failures, rate limits), and its sub-language
matching is modelled as case-insensitive glob matching with the reserved
token all accepting any language.
-/

/-- One caption track descriptor as reported by the metadata source. -/
structure TrackInfo where
  url : Option String
deriving DecidableEq

/-- The per-video caption catalog: subtitles (manual) and
automatic_captions, each language code mapping to its tracks. -/
structure Catalog where
  subtitles : List (String × List TrackInfo)
  automatic_captions : List (String × List TrackInfo)
deriving DecidableEq

/-- Stable insertion sort on strings (Python sorted on the key lists). -/
def insertStr (s : String) : List String → List String
  | [] => [s]
  | t :: r => if s ≤ t then s :: t :: r else t :: insertStr s r

def sortStr : List String → List String
  | [] => []
  | s :: r => insertStr s (sortStr r)

/-- discover_caption_langs: the sorted key lists of the two maps. -/
def discover_caption_langs (cat : Catalog) : List String × List String :=
  (sortStr (cat.subtitles.map Prod.fst),
   sortStr (cat.automatic_captions.map Prod.fst))

/-- Glob matching with * wildcards (fuelled; fuel |p|+|s|+1 suffices). -/
def globGo : Nat → List Char → List Char → Bool
  | 0, _, _ => false
  | _ + 1, [], s => s.isEmpty
  | fuel + 1, c :: p, s =>
    if c = '*' then
      globGo fuel p s ||
        (match s with
         | [] => false
         | _ :: s2 => globGo fuel (c :: p) s2)
    else
      match s with
      | [] => false
      | d :: s2 => c = d && globGo fuel p s2

def globMatch (p s : List Char) : Bool :=
  globGo (p.length + s.length + 1) p s

/-- Model of the external yt-dlp sub-language matching for one requested
pattern against one available language. -/
def ytMatchOne (pat lang : String) : Bool :=
  pat = "all" || globMatch (lowerL pat.data) (lowerL lang.data)

/-- The language whose subtitle file an attempt yields: the first
requested pattern that matches an available language, resolved to the
first such language. -/
def findLang : List String → List String → Option String
  | [], _ => none
  | p :: ps, langs =>
    match langs.find? (fun l => ytMatchOne p l) with
    | some l => some l
    | none => findLang ps langs

/-- One row of attempt_log["attempts"]. -/
structure AttemptRec where
  label : String
  rc : Nat
  cmd : String
deriving DecidableEq

def joinComma : List String → String
  | [] => ""
  | [s] => s
  | s :: t :: r => s ++ "," ++ joinComma (t :: r)

/-- " ".join of the yt-dlp command list built by run_attempt. -/
def mkCmd (write_flag sub_lang url : String) : String :=
  "yt-dlp --skip-download " ++ write_flag ++ " --sub-langs " ++ sub_lang ++
    " --convert-subs srt --force-overwrites -o %(id)s.%(lang)s.%(ext)s " ++ url

/-- run_attempt: returns the detected language of the newest written
subtitle file (none when yt-dlp failed or nothing matched) plus the log
row. -/
def run_attempt (fetchOk : Nat → Bool) (idx : Nat) (label write_flag : String)
    (patterns avail : List String) (url : String) :
    Option String × AttemptRec :=
  (if fetchOk idx then findLang patterns avail else none,
   ⟨label, if fetchOk idx then 0 else 1, mkCmd write_flag (joinComma patterns) url⟩)

/-- One entry of the attempt sequence of try_subs_with_discovery. -/
structure AttemptSpec where
  label : String
  write_flag : String
  patterns : List String
  avail : List String
  kind : String

/-- Run the attempts in source order: stop at the first success (the log
then ends at that attempt, as in the source), otherwise log and go on. -/
def runPlan (fetchOk : Nat → Bool) (url : String) :
    Nat → List AttemptSpec → Option (String × String) × List AttemptRec
  | _, [] => (none, [])
  | idx, sp :: rest =>
    match (run_attempt fetchOk idx sp.label sp.write_flag sp.patterns sp.avail url).1 with
    | some l =>
      (some (l, sp.kind),
       [(run_attempt fetchOk idx sp.label sp.write_flag sp.patterns sp.avail url).2])
    | none =>
      ((runPlan fetchOk url (idx + 1) rest).1,
       (run_attempt fetchOk idx sp.label sp.write_flag sp.patterns sp.avail url).2 ::
         (runPlan fetchOk url (idx + 1) rest).2)

/-- try_subs_with_discovery from src/main.py: discovered manual langs,
discovered auto langs, the requested (normalized) list as manual then
auto, the english auto safety net, then the two catch-alls. -/
def try_subs_with_discovery (cat : Catalog) (url langs : String)
    (fetchOk : Nat → Bool) : Option (String × String) × List AttemptRec :=
  let disc := discover_caption_langs cat
  let manualAvail := cat.subtitles.map Prod.fst
  let autoAvail := cat.automatic_captions.map Prod.fst
  let requested_list := normalize_langs langs
  let plan :=
    (if disc.1.isEmpty then [] else
      [⟨"manual/discovered:" ++ joinComma disc.1, "--write-sub",
        disc.1, manualAvail, "manual"⟩]) ++
    (if disc.2.isEmpty then [] else
      [⟨"auto/discovered:" ++ joinComma disc.2, "--write-auto-sub",
        disc.2, autoAvail, "auto"⟩]) ++
    [⟨"manual/requested", "--write-sub", requested_list, manualAvail, "manual"⟩,
     ⟨"auto/requested", "--write-auto-sub", requested_list, autoAvail, "auto"⟩,
     ⟨"auto/english-fallback", "--write-auto-sub",
       ["en", "en-US", "en-GB", "en.*", "*en*"], autoAvail, "auto"⟩,
     ⟨"auto/all", "--write-auto-sub", ["all"], autoAvail, "auto"⟩,
     ⟨"manual/all", "--write-sub", ["all"], manualAvail, "manual"⟩]
  runPlan fetchOk url 0 plan

/-!
## extract_video_id, metadata formatting and the transcript handler
-/

/-- The character class of ID_RE. -/
def idChar (c : Char) : Bool :=
  c.isAlphanum || c = '_' || c = '-'

/-- The capture group: exactly 11 id characters. -/
def take11 (l : List Char) : Option String :=
  let t := l.take 11
  if t.length = 11 && t.all idChar then some (String.mk t) else none

def matchMarker (marker : String) (l : List Char) : Option String :=
  if marker.data.isPrefixOf l then take11 (l.drop marker.data.length) else none

/-- ID_RE.search: leftmost occurrence of v=, youtu.be/ or shorts/
followed by an 11-character id. -/
def searchID : List Char → Option String
  | [] => none
  | c :: rest =>
    match matchMarker "v=" (c :: rest) with
    | some i => some i
    | none =>
      match matchMarker "youtu.be/" (c :: rest) with
      | some i => some i
      | none =>
        match matchMarker "shorts/" (c :: rest) with
        | some i => some i
        | none => searchID rest

/-- extract_video_id from src/main.py. -/
def extract_video_id (u : String) : String :=
  let u2 := pyStripStr u
  match searchID u2.data with
  | some i => i
  | none =>
    if u2.data.length = 11 && u2.data.all idChar then u2 else u2

example : extract_video_id "https://www.youtube.com/watch?v=dQw4w9WgXcQ" = "dQw4w9WgXcQ" := by
  decide
example : extract_video_id " dQw4w9WgXcQ " = "dQw4w9WgXcQ" := by decide

/-- The timedtext probe URL built by direct_timedtext_probe. -/
def direct_timedtext_probe_url (vid langs_csv : String) : String :=
  let first := String.mk ((splitChar ',' langs_csv.data).headD [])
  let lang := pyStripStr (pyOr first "en")
  "https://www.youtube.com/api/timedtext?lang=" ++ lang ++ "&v=" ++ vid

/-- The probe dict recorded in the failure detail; status and length come
from the external HTTP response. -/
structure Probe where
  url : String
  status : Int
  len : Nat
deriving DecidableEq

/-- Relevant fields of the yt-dlp metadata JSON. -/
structure MetaInfo where
  title : Option String
  channel : Option String
  uploader : Option String
  upload_date : Option String
  duration : Option Nat
  id : Option String
deriving DecidableEq

def pad2 (n : Nat) : String :=
  if n < 10 then "0" ++ toString n else toString n

def fmt_hms (seconds : Nat) : String :=
  pad2 (seconds / 3600) ++ ":" ++ pad2 (seconds % 3600 / 60) ++ ":" ++ pad2 (seconds % 60)

def joinSpace : List String → String
  | [] => ""
  | [s] => s
  | s :: t :: r => s ++ " " ++ joinSpace (t :: r)

def fmt_pretty_duration (seconds : Nat) : String :=
  let h := seconds / 3600
  let m := seconds % 3600 / 60
  let s := seconds % 60
  let parts :=
    (if h ≠ 0 then [toString h ++ "h"] else []) ++
    (if m ≠ 0 then [toString m ++ "m"] else []) ++
    (if s ≠ 0 && h = 0 then [toString s ++ "s"] else [])
  if parts.isEmpty then "0s" else joinSpace parts

def humanize_seconds (sec : Nat) : String :=
  let h := sec / 3600
  let m := sec % 3600 / 60
  let parts0 := if h ≠ 0 then [toString h ++ "h"] else []
  joinSpace (parts0 ++ (if m ≠ 0 || parts0.isEmpty then [toString m ++ "m"] else []))

/-- The structured detail of the 404 raised when no subtitles could be
obtained. -/
structure FailDetail where
  message : String
  video_id_extracted : String
  video_id_metadata : String
  timedtext_probe : Probe
  ytdlp_attempts : List AttemptRec
deriving DecidableEq

/-- The JSON result of a successful transcript request. -/
structure TResult where
  title : String
  channel : String
  published_at : String
  duration_s : Nat
  duration_hms : String
  duration_pretty : String
  video_id : String
  captions_lang : String
  captions_kind : String
  requested_langs : String
  preview_text : String
  truncated : Bool
  txt_http_url : String
  srt_http_url : String
  pdf_http_url : String
  links_expire_in_seconds : Nat
  links_expire_human : String
deriving DecidableEq

/-- POST transcript from src/main.py.  External observations are passed
in: meta (yt-dlp metadata), cat/fetchOk (caption catalog and per-attempt
network outcome), ttStatus/ttLen (timedtext probe response), srtText (the
bytes of the fetched subtitle file), pdfResult (the PDF collaborator,
Except modelling the try/except), and t1 t2 t3 (the random tokens). -/
def transcript (url_or_id langs : String) (keep_timestamps : Bool)
    (meta : MetaInfo) (cat : Catalog) (fetchOk : Nat → Bool)
    (ttStatus : Int) (ttLen : Nat) (srtText : String)
    (pdfResult : Except String String) (t1 t2 t3 : String)
    (base : String) (ttl now : Nat) (σ : Store) :
    Except FailDetail TResult × Store :=
  let σ1 := cleanup_files now σ
  let vid := extract_video_id url_or_id
  let tt : Probe := ⟨direct_timedtext_probe_url vid langs, ttStatus, ttLen⟩
  let title := meta.title.getD ""
  let channel := pyOr (meta.channel.getD "") (meta.uploader.getD "")
  let published0 := meta.upload_date.getD ""
  let published_at :=
    if published0.data.length = 8 then
      String.mk (published0.data.take 4) ++ "-" ++
        String.mk ((published0.data.drop 4).take 2) ++ "-" ++
        String.mk (published0.data.drop 6)
    else published0
  let duration_s := meta.duration.getD 0
  let meta_vid := pyOr (meta.id.getD "") vid
  match try_subs_with_discovery cat url_or_id langs fetchOk with
  | (none, attempts) =>
    (.error ⟨"Failed to obtain subtitles.", vid, meta_vid, tt, attempts⟩, σ1)
  | (some (captions_lang, captions_kind), attempts) =>
    let txt_text := clean_srt_to_text srtText keep_timestamps
    let pdf_bytes := match pdfResult with | .ok b => b | .error _ => ""
    let lang_for_name0 :=
      pyOr captions_lang
        (if langs ≠ "" then String.mk ((splitChar ',' langs.data).headD []) else "und")
    let lang_for_name :=
      String.mk (lang_for_name0.data.map (fun c => if c = '*' then 'x' else c))
    let txt_filename := meta_vid ++ "_" ++ lang_for_name ++ ".txt"
    let srt_filename := meta_vid ++ "_" ++ lang_for_name ++ ".srt"
    let pdf_filename := "transcript_" ++ meta_vid ++ ".pdf"
    let σ2 := store_file σ1 t1 txt_text "text/plain; charset=utf-8" txt_filename now ttl
    let σ3 := store_file σ2 t2 srtText "text/plain; charset=utf-8" srt_filename now ttl
    let withPdf := pdf_bytes ≠ ""
    let σ4 :=
      if withPdf then store_file σ3 t3 pdf_bytes "application/pdf" pdf_filename now ttl
      else σ3
    let _ := attempts
    (.ok ⟨title, channel, published_at, duration_s, fmt_hms duration_s,
      fmt_pretty_duration duration_s, meta_vid, captions_lang, captions_kind,
      joinComma (normalize_langs langs), String.mk (txt_text.data.take 2500),
      decide (txt_text.data.length > 2500),
      abs_url base ("/file/" ++ t1), abs_url base ("/file/" ++ t2),
      (if withPdf then abs_url base ("/file/" ++ t3) else ""),
      ttl, humanize_seconds ttl⟩, σ4)

/-- Modelled from the spec: the filtered available-language list of one
side of the catalog, keeping only languages some candidate track of which
has a usable source (src/main.py performs no such filtering anywhere;
this definition exists to state claims that mention the filtered lists). -/
def specFilteredLangs (m : List (String × List TrackInfo)) : List String :=
  (m.filter (fun p => p.2.any (fun t => t.url.isSome))).map Prod.fst

instance {ε α : Type} [DecidableEq ε] [DecidableEq α] : DecidableEq (Except ε α) := fun a b =>
  match a, b with
  | .error e, .error f => decidable_of_iff (e = f) (by simp)
  | .error _, .ok _ => isFalse (by simp)
  | .ok _, .error _ => isFalse (by simp)
  | .ok a, .ok b => decidable_of_iff (a = b) (by simp)

/-!
## Claim theorems
-/

/-- C2: given a catalog in which the language en has both a Manual and an
Auto track and the preference list ["en"], try_subs_with_discovery selects
the Manual en track and reports kind manual: the discovered-manual attempt
runs before the discovered-auto attempt. -/
theorem C2_manual_beats_auto_on_tie :
    (try_subs_with_discovery
      ⟨[("en", [⟨some "https://cap/manual-en"⟩])],
       [("en", [⟨some "https://cap/auto-en"⟩])]⟩
      "https://www.youtube.com/watch?v=dQw4w9WgXcQ" "en" (fun _ => true)).1
      = some ("en", "manual") := by
  decide

/-- C9: for the single-token requests nl, fr, de, es and the regional form
nl-NL, normalize_langs broadens the request with the same-language variants
and a glob pattern before appending the wildcard all. -/
theorem C9_single_token_broadening :
    normalize_langs "nl" = ["nl", "nl-NL", "*nl*", "all"] ∧
    normalize_langs "fr" = ["fr", "fr-FR", "*fr*", "all"] ∧
    normalize_langs "de" = ["de", "de-DE", "*de*", "all"] ∧
    normalize_langs "es" = ["es", "es-ES", "*es*", "all"] ∧
    normalize_langs "nl-NL" = ["nl-NL", "nl", "*nl*", "all"] := by
  decide

/-- C6 counterexample: on the single-cue input with the dot-format (VTT)
timecode 00:00:01.000 --> 00:00:02.000 and text Hello hello, the flattener
leaves the timecode line in place (ts_re only matches comma timecodes), so
the output is not the claimed "Hello". -/
theorem C6_counterexample :
    clean_srt_to_text "00:00:01.000 --> 00:00:02.000\nHello hello\n" false
        = "00:00:01.000 --> 00:00:02.000 Hello" ∧
    clean_srt_to_text "00:00:01.000 --> 00:00:02.000\nHello hello\n" false
        ≠ "Hello" := by
  decide

/-- C6 amended: with the canonical comma (SRT) timecode — the format the
pipeline actually feeds the flattener after --convert-subs srt — the
single-cue input with text Hello hello flattens to exactly "Hello",
collapsing the immediate case-insensitive word repetition. -/
theorem C6_amended_srt_timecode :
    clean_srt_to_text "00:00:01,000 --> 00:00:02,000\nHello hello\n" false
      = "Hello" := by
  decide

/-- C1 counterexample: with Manual catalog containing only fr, Auto
catalog containing exactly en, and preference ["en"], an exact
case-insensitive requested-language match (en, Auto) exists, yet the
resolver returns (fr, manual): the discovery-based choice runs before any
requested-token matching, so the exact requested match is skipped. -/
theorem C1_counterexample :
    lowerStr "en" ∈
      ((Catalog.mk [("fr", [⟨some "https://cap/manual-fr"⟩])]
        [("en", [⟨some "https://cap/auto-en"⟩])]).automatic_captions.map
          Prod.fst).map lowerStr ∧
    (try_subs_with_discovery
      (Catalog.mk [("fr", [⟨some "https://cap/manual-fr"⟩])]
        [("en", [⟨some "https://cap/auto-en"⟩])])
      "https://www.youtube.com/watch?v=dQw4w9WgXcQ" "en" (fun _ => true)).1
      = some ("fr", "manual") := by
  decide

/-- C7 counterexample: two failing transcript runs whose catalogs have the
same language keys but different track sources produce identical failure
values, while their filtered available-language lists differ; hence the
delivered failure cannot include the filtered lists (the detail carries
only message, ids, probe and the attempt log). -/
theorem C7_counterexample :
    (transcript "dQw4w9WgXcQ" "en" false ⟨none, none, none, none, none, none⟩
        (Catalog.mk [("en", [⟨some "https://cap/en"⟩])] [])
        (fun _ => false) 404 0 "" (.error "render failed")
        "t1" "t2" "t3" "" 86400 0 []).1
      = (transcript "dQw4w9WgXcQ" "en" false ⟨none, none, none, none, none, none⟩
        (Catalog.mk [("en", [⟨none⟩])] [])
        (fun _ => false) 404 0 "" (.error "render failed")
        "t1" "t2" "t3" "" 86400 0 []).1 ∧
    specFilteredLangs [("en", [TrackInfo.mk (some "https://cap/en")])]
      ≠ specFilteredLangs [("en", [TrackInfo.mk none])] := by
  decide

/-!
### Helper lemmas on glob matching, findLang, sortStr and runPlan
-/

theorem globGo_self (s : List Char) : ∀ fuel, 2 * s.length + 1 ≤ fuel → globGo fuel s s = true := by
  induction s with
  | nil =>
    intro fuel h
    match fuel, h with
    | f + 1, _ => simp [globGo]
  | cons c r ih =>
    intro fuel h
    match fuel, h with
    | f + 1, h =>
      by_cases hc : c = '*'
      · subst hc
        have hf : ∃ f2, f = f2 + 1 := by
          refine ⟨f - 1, ?_⟩
          simp only [List.length_cons] at h
          omega
        obtain ⟨f2, rfl⟩ := hf
        have hrr : globGo f2 r r = true := by
          apply ih
          simp only [List.length_cons] at h
          omega
        simp [globGo]
        exact Or.inr (Or.inl hrr)
      · have : globGo f r r = true := by
          apply ih
          simp only [List.length_cons] at h
          omega
        simp [globGo, hc, this]

theorem globMatch_self (s : List Char) : globMatch s s = true := by
  apply globGo_self
  simp [globMatch]
  omega

theorem ytMatchOne_self (x : String) : ytMatchOne x x = true := by
  simp [ytMatchOne, globMatch_self]

theorem findLang_mem : ∀ (ps avail : List String) (l : String),
    findLang ps avail = some l → l ∈ avail := by
  intro ps
  induction ps with
  | nil => intro avail l h; simp [findLang] at h
  | cons q ps ih =>
    intro avail l h
    rw [findLang] at h
    cases hf : avail.find? (fun a => ytMatchOne q a) with
    | none => rw [hf] at h; exact ih avail l h
    | some x =>
      rw [hf] at h
      cases h
      exact List.mem_of_find?_eq_some hf

theorem findLang_isSome : ∀ (ps avail : List String) (p : String), p ∈ ps →
    ∀ a ∈ avail, ytMatchOne p a = true → ∃ l, findLang ps avail = some l := by
  intro ps
  induction ps with
  | nil => intro avail p hp; simp at hp
  | cons q ps ih =>
    intro avail p hp a ha hm
    rw [findLang]
    cases hf : avail.find? (fun x => ytMatchOne q x) with
    | some x => exact ⟨x, rfl⟩
    | none =>
      rcases List.mem_cons.mp hp with rfl | hps
      · have := List.find?_eq_none.mp hf a ha
        simp [hm] at this
      · exact ih avail p hps a ha hm

theorem mem_insertStr {x s : String} : ∀ {l : List String}, x ∈ insertStr s l ↔ x = s ∨ x ∈ l := by
  intro l
  induction l with
  | nil => simp [insertStr]
  | cons t r ih =>
    rw [insertStr]
    by_cases h : s ≤ t
    · simp [h]
    · simp only [h, if_false, List.mem_cons, ih]
      tauto

theorem mem_sortStr {x : String} : ∀ {l : List String}, x ∈ sortStr l ↔ x ∈ l := by
  intro l
  induction l with
  | nil => simp [sortStr]
  | cons s r ih => rw [sortStr]; simp [mem_insertStr, ih]

theorem insertStr_ne_nil (s : String) (l : List String) : insertStr s l ≠ [] := by
  cases l with
  | nil => simp [insertStr]
  | cons t r =>
    rw [insertStr]
    by_cases h : s ≤ t <;> simp [h]

theorem sortStr_ne_nil {l : List String} (h : l ≠ []) : sortStr l ≠ [] := by
  cases l with
  | nil => exact absurd rfl h
  | cons s r => rw [sortStr]; exact insertStr_ne_nil _ _

theorem runPlan_none_logs (f : Nat → Bool) (url : String) :
    ∀ (plan : List AttemptSpec) (idx : Nat) (sp : AttemptSpec), sp ∈ plan →
      (runPlan f url idx plan).1 = none →
      ∃ a ∈ (runPlan f url idx plan).2,
        a.cmd = mkCmd sp.write_flag (joinComma sp.patterns) url := by
  intro plan
  induction plan with
  | nil => intro idx sp hsp; simp at hsp
  | cons q rest ih =>
    intro idx sp hsp hnone
    simp only [runPlan] at hnone ⊢
    cases hr : (run_attempt f idx q.label q.write_flag q.patterns q.avail url).1 with
    | some l =>
      simp only [hr] at hnone
      simp at hnone
    | none =>
      simp only [hr] at hnone ⊢
      rcases List.mem_cons.mp hsp with rfl | hrest
      · refine ⟨(run_attempt f idx sp.label sp.write_flag sp.patterns sp.avail url).2,
          List.mem_cons_self _ _, ?_⟩
        simp [run_attempt]
      · obtain ⟨a, ha, hc⟩ := ih (idx + 1) sp hrest hnone
        exact ⟨a, List.mem_cons_of_mem _ ha, hc⟩

/-- C1 amended: the resolver does not scan the preference tokens first; it
tries the discovered manual languages, then the discovered auto languages,
and only afterwards the requested (broadened) list manual-then-auto and
the final fallbacks.  Whenever the video has any manual track and the
first yt-dlp call succeeds, the selection is a discovered manual language,
whatever the preference; with no manual tracks, a discovered auto
language.  An exact requested-language match can therefore be skipped in
favour of the discovery-based choice. -/
theorem C1_amended_discovery_precedes_preference :
    (∀ (cat : Catalog) (url langs : String) (fetchOk : Nat → Bool),
        cat.subtitles ≠ [] → fetchOk 0 = true →
        ∃ l ∈ cat.subtitles.map Prod.fst,
          (try_subs_with_discovery cat url langs fetchOk).1 = some (l, "manual")) ∧
    (∀ (cat : Catalog) (url langs : String) (fetchOk : Nat → Bool),
        cat.subtitles = [] → cat.automatic_captions ≠ [] → fetchOk 0 = true →
        ∃ l ∈ cat.automatic_captions.map Prod.fst,
          (try_subs_with_discovery cat url langs fetchOk).1 = some (l, "auto")) := by
  constructor
  · intro cat url langs fetchOk hm h0
    have hkeys : cat.subtitles.map Prod.fst ≠ [] := by
      simpa using hm
    have hd1 : sortStr (cat.subtitles.map Prod.fst) ≠ [] := sortStr_ne_nil hkeys
    obtain ⟨p, hp⟩ := List.exists_mem_of_ne_nil _ hd1
    have hpk : p ∈ cat.subtitles.map Prod.fst := mem_sortStr.mp hp
    obtain ⟨l, hl⟩ := findLang_isSome (sortStr (cat.subtitles.map Prod.fst))
      (cat.subtitles.map Prod.fst) p hp p hpk (ytMatchOne_self p)
    refine ⟨l, findLang_mem _ _ _ hl, ?_⟩
    obtain ⟨q, qs, hqs⟩ := List.exists_cons_of_ne_nil hd1
    simp only [try_subs_with_discovery, discover_caption_langs, hqs,
      List.isEmpty_cons, List.cons_append, runPlan, run_attempt, h0, if_true]
    rw [hqs] at hl
    simp [hl]
  · intro cat url langs fetchOk hm ha h0
    have hkeys : cat.automatic_captions.map Prod.fst ≠ [] := by
      simpa using ha
    have hd2 : sortStr (cat.automatic_captions.map Prod.fst) ≠ [] := sortStr_ne_nil hkeys
    obtain ⟨p, hp⟩ := List.exists_mem_of_ne_nil _ hd2
    have hpk : p ∈ cat.automatic_captions.map Prod.fst := mem_sortStr.mp hp
    obtain ⟨l, hl⟩ := findLang_isSome (sortStr (cat.automatic_captions.map Prod.fst))
      (cat.automatic_captions.map Prod.fst) p hp p hpk (ytMatchOne_self p)
    refine ⟨l, findLang_mem _ _ _ hl, ?_⟩
    obtain ⟨q, qs, hqs⟩ := List.exists_cons_of_ne_nil hd2
    simp only [try_subs_with_discovery, discover_caption_langs, hm, hqs,
      List.map_nil, sortStr, List.isEmpty_nil, List.isEmpty_cons,
      List.nil_append, List.cons_append, runPlan, run_attempt, h0, if_true]
    rw [hqs] at hl
    simp [hl]

/-- Witness for C1 amended: a concrete catalog with one manual track (fr)
and one auto track (en); discovery selects fr/manual although the caller
asked for en, and with the manual side removed it selects en/auto. -/
theorem C1_amended_witness :
    (∃ l ∈ (Catalog.mk [("fr", [⟨some "https://cap/manual-fr"⟩])]
        [("en", [⟨some "https://cap/auto-en"⟩])]).subtitles.map Prod.fst,
      (try_subs_with_discovery
        (Catalog.mk [("fr", [⟨some "https://cap/manual-fr"⟩])]
          [("en", [⟨some "https://cap/auto-en"⟩])])
        "https://www.youtube.com/watch?v=dQw4w9WgXcQ" "en" (fun _ => true)).1
        = some (l, "manual")) ∧
    (∃ l ∈ (Catalog.mk [] [("en", [⟨some "https://cap/auto-en"⟩])]).automatic_captions.map
        Prod.fst,
      (try_subs_with_discovery (Catalog.mk [] [("en", [⟨some "https://cap/auto-en"⟩])])
        "https://www.youtube.com/watch?v=dQw4w9WgXcQ" "en" (fun _ => true)).1
        = some (l, "auto")) :=
  ⟨C1_amended_discovery_precedes_preference.1 _ _ _ _ (by decide) rfl,
   C1_amended_discovery_precedes_preference.2 _ _ _ _ rfl (by decide) rfl⟩

/-- On total failure of try_subs_with_discovery, the attempt log contains
the manual/requested row, whose command embeds the normalized preference
list as the --sub-langs CSV. -/
theorem try_subs_none_requested (cat : Catalog) (url langs : String) (fetchOk : Nat → Bool)
    (h : (try_subs_with_discovery cat url langs fetchOk).1 = none) :
    ∃ a ∈ (try_subs_with_discovery cat url langs fetchOk).2,
      a.cmd = mkCmd "--write-sub" (joinComma (normalize_langs langs)) url := by
  simp only [try_subs_with_discovery] at h ⊢
  exact runPlan_none_logs fetchOk url _ 0
    ⟨"manual/requested", "--write-sub", normalize_langs langs,
      cat.subtitles.map Prod.fst, "manual"⟩
    (by
      apply List.mem_append_right
      exact List.mem_cons_self _ _)
    h

/-- C7 amended: when a transcript request fails because no captions could
be obtained, the structured failure carries the message, the extracted and
metadata video ids, the timedtext probe and the yt-dlp attempt log; the
exact (normalized) preference list appears only embedded in the logged
command strings — in particular in the manual/requested command — and no
dedicated filtered available-language fields exist (see the
counterexample). -/
theorem C7_amended_failure_detail (url_or_id langs : String) (kt : Bool) (meta : MetaInfo)
    (cat : Catalog) (fetchOk : Nat → Bool) (tts : Int) (ttn : Nat) (srt : String)
    (pdfR : Except String String) (t1 t2 t3 base : String) (ttl now : Nat) (σ : Store)
    (d : FailDetail)
    (h : (transcript url_or_id langs kt meta cat fetchOk tts ttn srt pdfR
        t1 t2 t3 base ttl now σ).1 = .error d) :
    ∃ a ∈ d.ytdlp_attempts,
      a.cmd = mkCmd "--write-sub" (joinComma (normalize_langs langs)) url_or_id := by
  cases htry : try_subs_with_discovery cat url_or_id langs fetchOk with
  | mk r att =>
    cases r with
    | none =>
      have hd : d.ytdlp_attempts = att := by
        simp only [transcript, htry] at h
        cases h
        rfl
      rw [hd]
      have h1 : (try_subs_with_discovery cat url_or_id langs fetchOk).1 = none := by
        rw [htry]
      have h2 := try_subs_none_requested cat url_or_id langs fetchOk h1
      rw [htry] at h2
      exact h2
    | some lk =>
      rcases lk with ⟨lang, kind⟩
      simp only [transcript, htry] at h
      simp at h

/-- Witness for C7 amended: a concrete failing run (empty catalog, all
fetches failing); its delivered detail contains an attempt whose command
embeds the normalized preference CSV. -/
theorem C7_amended_witness :
    ∃ d, (transcript "dQw4w9WgXcQ" "en" false ⟨none, none, none, none, none, none⟩
        (Catalog.mk [] []) (fun _ => false) 404 0 "" (.error "e")
        "t1" "t2" "t3" "" 86400 0 []).1 = .error d ∧
      ∃ a ∈ d.ytdlp_attempts,
        a.cmd = mkCmd "--write-sub" (joinComma (normalize_langs "en")) "dQw4w9WgXcQ" :=
  ⟨_, rfl, C7_amended_failure_detail "dQw4w9WgXcQ" "en" false ⟨none, none, none, none, none, none⟩
    (Catalog.mk [] []) (fun _ => false) 404 0 "" (.error "e")
    "t1" "t2" "t3" "" 86400 0 [] _ rfl⟩

/-!
### Helper lemmas on the token store
-/

theorem lookup_mem : ∀ {σ : Store} {k : String} {e : FileEntry},
    σ.lookup k = some e → (k, e) ∈ σ := by
  intro σ
  induction σ with
  | nil => intro k e h; simp [List.lookup] at h
  | cons p r ih =>
    intro k e h
    rcases p with ⟨a, b⟩
    rw [List.lookup] at h
    by_cases hk : k == a
    · rw [hk] at h
      cases h
      have : k = a := by simpa using hk
      subst this
      exact List.mem_cons_self _ _
    · rw [Bool.of_not_eq_true hk] at h
      exact List.mem_cons_of_mem _ (ih h)

theorem mem_lookup_isSome : ∀ {σ : Store} {k : String} {e : FileEntry},
    (k, e) ∈ σ → (σ.lookup k).isSome := by
  intro σ
  induction σ with
  | nil => intro k e h; simp at h
  | cons p r ih =>
    intro k e h
    rcases p with ⟨a, b⟩
    rw [List.lookup]
    by_cases hk : k == a
    · rw [hk]; rfl
    · rw [Bool.of_not_eq_true hk]
      rcases List.mem_cons.mp h with heq | hmem
      · cases heq
        simp at hk
      · exact ih hmem

theorem nodup_keys_unique : ∀ {σ : Store}, (σ.map Prod.fst).Nodup →
    ∀ {k : String} {e e2 : FileEntry}, (k, e) ∈ σ → (k, e2) ∈ σ → e = e2 := by
  intro σ
  induction σ with
  | nil => intro _ k e e2 h; simp at h
  | cons p r ih =>
    intro hnd k e e2 h1 h2
    rcases p with ⟨a, b⟩
    rw [List.map_cons, List.nodup_cons] at hnd
    rcases List.mem_cons.mp h1 with he1 | hm1 <;> rcases List.mem_cons.mp h2 with he2 | hm2
    · cases he1; cases he2; rfl
    · cases he1
      exact absurd (List.mem_map_of_mem Prod.fst hm2) hnd.1
    · cases he2
      exact absurd (List.mem_map_of_mem Prod.fst hm1) hnd.1
    · exact ih hnd.2 hm1 hm2

theorem mem_cleanup {now : Nat} {σ : Store} {t : String} {e : FileEntry} :
    (t, e) ∈ cleanup_files now σ ↔ ((t, e) ∈ σ ∧ ¬ e.exp < now) := by
  simp [cleanup_files, List.mem_filter]

theorem get_file_snd (token : String) (now : Nat) (σ : Store) :
    (get_file token now σ).2 = cleanup_files now σ := by
  rw [get_file]
  cases h : storeGet (cleanup_files now σ) token with
  | none => rfl
  | some item =>
    by_cases he : item.exp < now <;> simp [he]

theorem mem_store_file {σ : Store} {tok tk c m f : String} {e : FileEntry} {now ttl : Nat}
    (h : (tok, e) ∈ store_file σ tk c m f now ttl) (hexp : e.exp < now) : (tok, e) ∈ σ := by
  rcases List.mem_cons.mp h with heq | hmem
  · cases heq
    have hlt : now + ttl < now := hexp
    omega
  · exact List.mem_of_mem_filter hmem

/-- C3: registering an artifact and resolving its token before expiry
returns exactly the stored bytes, mime type and filename (the filename
inside the Content-Disposition header); resolving a token whose entry has
expired yields the 404 error, and that access purges the entry from the
store; resolving a token that was never registered also yields the 404
error. -/
theorem C3_token_store :
    (∀ (σ : Store) (token content mime filename : String) (now ttl t : Nat),
        t ≤ now + ttl →
        (get_file token t (store_file σ token content mime filename now ttl)).1
          = .ok ⟨content, mime, mime,
              "attachment; filename=\"" ++ filename ++ "\"", "no-store"⟩) ∧
    (∀ (σ : Store) (token : String) (t : Nat) (e : FileEntry),
        (σ.map Prod.fst).Nodup → storeGet σ token = some e → e.exp < t →
        (get_file token t σ).1 = .error (404, "File expired or not found.") ∧
          (token, e) ∉ (get_file token t σ).2) ∧
    (∀ (σ : Store) (token : String) (t : Nat),
        storeGet σ token = none →
        (get_file token t σ).1 = .error (404, "File expired or not found.")) := by
  refine ⟨?_, ?_, ?_⟩
  · intro σ token content mime filename now ttl t h
    have hlt : ¬ (now + ttl < t) := by omega
    simp [get_file, store_file, cleanup_files, storeGet, List.lookup, hlt]
  · intro σ token t e hnd hget hexp
    have hmem : (token, e) ∈ σ := lookup_mem hget
    have hnone : storeGet (cleanup_files t σ) token = none := by
      cases hkl : storeGet (cleanup_files t σ) token with
      | none => rfl
      | some e2 =>
        have h2 : (token, e2) ∈ cleanup_files t σ := lookup_mem hkl
        have h3 := mem_cleanup.mp h2
        have : e2 = e := nodup_keys_unique hnd h3.1 hmem
        subst this
        exact absurd hexp h3.2
    constructor
    · rw [get_file, hnone]
    · rw [get_file_snd]
      intro hc
      exact (mem_cleanup.mp hc).2 hexp
  · intro σ token t hget
    have hnone : storeGet (cleanup_files t σ) token = none := by
      cases hkl : storeGet (cleanup_files t σ) token with
      | none => rfl
      | some e2 =>
        have h2 : (token, e2) ∈ σ := (mem_cleanup.mp (lookup_mem hkl)).1
        have := mem_lookup_isSome h2
        rw [show σ.lookup token = storeGet σ token from rfl, hget] at this
        simp at this
    rw [get_file, hnone]

/-- Witness for C3: a concrete register-then-resolve round trip, a
concrete expired resolve that purges, and a concrete unknown token. -/
theorem C3_token_store_witness :
    ((get_file "tok" 5 (store_file [] "tok" "payload" "text/plain" "a.txt" 0 10)).1
      = .ok ⟨"payload", "text/plain", "text/plain",
          "attachment; filename=\"a.txt\"", "no-store"⟩) ∧
    ((get_file "tok" 9 [("tok", ⟨"d", "m", "f", 3⟩)]).1
        = .error (404, "File expired or not found.") ∧
      ("tok", (⟨"d", "m", "f", 3⟩ : FileEntry)) ∉
        (get_file "tok" 9 [("tok", ⟨"d", "m", "f", 3⟩)]).2) ∧
    ((get_file "ghost" 1 []).1 = .error (404, "File expired or not found.")) :=
  ⟨C3_token_store.1 [] "tok" "payload" "text/plain" "a.txt" 0 10 5 (by decide),
   C3_token_store.2.1 [("tok", ⟨"d", "m", "f", 3⟩)] "tok" 9 ⟨"d", "m", "f", 3⟩
     (by decide) (by decide) (by decide),
   C3_token_store.2.2 [] "ghost" 1 (by decide)⟩

/-- C10: the opportunistic purge removes exactly the entries whose expiry
is strictly before now, leaving every surviving entry (all four fields)
unchanged; the health and get_file handlers leave the store exactly purged,
and a transcript request also removes every expired entry on entry. -/
theorem C10_purge_and_handlers :
    (∀ (now : Nat) (σ : Store) (t : String) (e : FileEntry),
        (t, e) ∈ cleanup_files now σ ↔ ((t, e) ∈ σ ∧ ¬ e.exp < now)) ∧
    (∀ (now ttl : Nat) (base : String) (σ : Store),
        (health now ttl base σ).2 = cleanup_files now σ) ∧
    (∀ (token : String) (now : Nat) (σ : Store),
        (get_file token now σ).2 = cleanup_files now σ) ∧
    (∀ (url_or_id langs : String) (kt : Bool) (meta : MetaInfo) (cat : Catalog)
        (fetchOk : Nat → Bool) (tts : Int) (ttn : Nat) (srt : String)
        (pdfR : Except String String) (t1 t2 t3 base : String) (ttl now : Nat)
        (σ : Store) (tok : String) (e : FileEntry),
        (tok, e) ∈ σ → e.exp < now →
        (tok, e) ∉ (transcript url_or_id langs kt meta cat fetchOk tts ttn srt pdfR
            t1 t2 t3 base ttl now σ).2) := by
  refine ⟨?_, ?_, ?_, ?_⟩
  · intro now σ t e
    exact mem_cleanup
  · intro now ttl base σ
    rfl
  · intro token now σ
    exact get_file_snd token now σ
  · intro url_or_id langs kt meta cat fetchOk tts ttn srt pdfR t1 t2 t3 base ttl now σ tok e
      hmem hexp
    intro hc
    have hclean : ¬ (tok, e) ∈ cleanup_files now σ := fun h => (mem_cleanup.mp h).2 hexp
    cases htry : try_subs_with_discovery cat url_or_id langs fetchOk with
    | mk r att =>
      cases r with
      | none =>
        simp only [transcript, htry] at hc
        exact hclean hc
      | some lk =>
        rcases lk with ⟨lang, kind⟩
        simp only [transcript, htry] at hc
        split at hc
        · exact hclean (mem_store_file (mem_store_file (mem_store_file hc hexp) hexp) hexp)
        · exact hclean (mem_store_file (mem_store_file hc hexp) hexp)

/-- Witness for C10: a concrete expired entry is gone after a transcript
request that starts from a store containing it. -/
theorem C10_witness :
    ("tok", (⟨"d", "m", "f", 0⟩ : FileEntry)) ∉
      (transcript "dQw4w9WgXcQ" "en" false ⟨none, none, none, none, none, none⟩
        (Catalog.mk [] []) (fun _ => false) 404 0 "" (.error "e")
        "t1" "t2" "t3" "" 10 5 [("tok", ⟨"d", "m", "f", 0⟩)]).2 :=
  C10_purge_and_handlers.2.2.2 "dQw4w9WgXcQ" "en" false ⟨none, none, none, none, none, none⟩
    (Catalog.mk [] []) (fun _ => false) 404 0 "" (.error "e")
    "t1" "t2" "t3" "" 10 5 [("tok", ⟨"d", "m", "f", 0⟩)] "tok" ⟨"d", "m", "f", 0⟩
    (by decide) (by decide)

theorem abs_url_file_ne (base t : String) : abs_url base ("/file/" ++ t) ≠ "" := by
  rw [abs_url]
  by_cases h : base = ""
  · simp only [h, if_true]
    intro hc
    have hlen := congrArg String.length hc
    rw [String.length_append] at hlen
    have h6 : ("/file/" : String).length = 6 := rfl
    have h0 : ("" : String).length = 0 := rfl
    omega
  · simp only [h, if_false]
    intro hc
    have hlen := congrArg String.length hc
    rw [String.length_append, String.length_append] at hlen
    have h1 : ("/" : String).length = 1 := rfl
    have h0 : ("" : String).length = 0 := rfl
    omega

/-- C8: if the PDF collaborator fails with any exception, the transcript
request still succeeds (given captions were obtained): the handler returns
an ok result whose pdf link is the empty string while the text and
subtitle links are present (non-empty). -/
theorem C8_pdf_failure_recovered (url_or_id langs : String) (kt : Bool) (meta : MetaInfo)
    (cat : Catalog) (fetchOk : Nat → Bool) (tts : Int) (ttn : Nat) (srt : String)
    (err : String) (t1 t2 t3 base : String) (ttl now : Nat) (σ : Store)
    (lk : String × String)
    (h : (try_subs_with_discovery cat url_or_id langs fetchOk).1 = some lk) :
    ∃ r, (transcript url_or_id langs kt meta cat fetchOk tts ttn srt (.error err)
        t1 t2 t3 base ttl now σ).1 = .ok r ∧
      r.pdf_http_url = "" ∧ r.txt_http_url ≠ "" ∧ r.srt_http_url ≠ "" := by
  rcases lk with ⟨lang, kind⟩
  cases htry : try_subs_with_discovery cat url_or_id langs fetchOk with
  | mk r att =>
    rw [htry] at h
    simp only at h
    subst h
    simp only [transcript, htry]
    exact ⟨_, rfl, by simp, abs_url_file_ne base t1, abs_url_file_ne base t2⟩

/-- Witness for C8: a concrete run with one manual en track and a failing
PDF renderer yields an ok result with empty pdf link and non-empty text
and subtitle links. -/
theorem C8_witness :
    ∃ r, (transcript "dQw4w9WgXcQ" "en" false ⟨none, none, none, none, none, none⟩
        (Catalog.mk [("en", [⟨some "https://cap/en"⟩])] []) (fun _ => true) 200 7
        "1\n00:00:01,000 --> 00:00:02,000\nHello hello\n" (.error "FPDFException: boom")
        "t1" "t2" "t3" "" 86400 0 []).1 = .ok r ∧
      r.pdf_http_url = "" ∧ r.txt_http_url ≠ "" ∧ r.srt_http_url ≠ "" :=
  C8_pdf_failure_recovered "dQw4w9WgXcQ" "en" false ⟨none, none, none, none, none, none⟩
    (Catalog.mk [("en", [⟨some "https://cap/en"⟩])] []) (fun _ => true) 200 7
    "1\n00:00:01,000 --> 00:00:02,000\nHello hello\n" "FPDFException: boom"
    "t1" "t2" "t3" "" 86400 0 [] ("en", "manual") (by decide)

/-!
### Helper lemmas for normalize_langs (claim C4)
-/

theorem contains_false_iff (l : List String) (x : String) :
    l.contains x = false ↔ x ∉ l := by
  induction l with
  | nil => simp
  | cons a r ih =>
    simp only [List.contains_cons, Bool.or_eq_false_iff, ih, List.mem_cons]
    constructor
    · rintro ⟨h1, h2⟩ (rfl | hm)
      · simp at h1
      · exact h2 hm
    · intro h
      refine ⟨?_, fun hm => h (Or.inr hm)⟩
      by_cases he : x = a
      · exact absurd (Or.inl he) h
      · simpa using he

theorem dropWhile_head_not {p : Char → Bool} :
    ∀ {l : List Char} {c : Char}, (l.dropWhile p).head? = some c → p c = false := by
  intro l
  induction l with
  | nil => intro c h; simp at h
  | cons x r ih =>
    intro c h
    by_cases hx : p x
    · rw [List.dropWhile_cons_of_pos hx] at h
      exact ih h
    · rw [List.dropWhile_cons_of_neg hx] at h
      cases h
      simpa using hx

theorem pyStrip_split (l : List Char) :
    ∃ junk, l.dropWhile isWS = pyStrip l ++ junk := by
  refine ⟨(((l.dropWhile isWS).reverse.takeWhile isWS)).reverse, ?_⟩
  have h1 : (l.dropWhile isWS).reverse.takeWhile isWS ++
      (l.dropWhile isWS).reverse.dropWhile isWS = (l.dropWhile isWS).reverse :=
    List.takeWhile_append_dropWhile isWS (l.dropWhile isWS).reverse
  have h2 := congrArg List.reverse h1
  rw [List.reverse_append, List.reverse_reverse] at h2
  rw [pyStrip]
  exact h2.symm

theorem pyStrip_head_not_ws {l : List Char} {c : Char}
    (h : (pyStrip l).head? = some c) : isWS c = false := by
  obtain ⟨junk, hj⟩ := pyStrip_split l
  have hh : (l.dropWhile isWS).head? = some c := by
    rw [hj]
    cases hp : pyStrip l with
    | nil => rw [hp] at h; simp at h
    | cons b bs =>
      rw [hp] at h
      cases h
      rfl
  exact dropWhile_head_not hh

theorem pyStrip_getLast_not_ws {l : List Char} {c : Char}
    (h : (pyStrip l).getLast? = some c) : isWS c = false := by
  rw [pyStrip, List.getLast?_reverse] at h
  exact dropWhile_head_not h

theorem pyStrip_eq_self {l : List Char}
    (h1 : ∀ c, l.head? = some c → isWS c = false)
    (h2 : ∀ c, l.getLast? = some c → isWS c = false) : pyStrip l = l := by
  have hA : l.dropWhile isWS = l := by
    cases l with
    | nil => rfl
    | cons c r =>
      have hcf := h1 c rfl
      simp [List.dropWhile_cons, hcf]
  rw [pyStrip, hA]
  have hB : l.reverse.dropWhile isWS = l.reverse := by
    cases hr : l.reverse with
    | nil => rfl
    | cons c r =>
      have hc : l.getLast? = some c := by
        rw [← List.head?_reverse, hr]
        rfl
      have hcf := h2 c hc
      simp [List.dropWhile_cons, hcf]
  rw [hB, List.reverse_reverse]

theorem pyStrip_idem (l : List Char) : pyStrip (pyStrip l) = pyStrip l :=
  pyStrip_eq_self (fun _ h => pyStrip_head_not_ws h) (fun _ h => pyStrip_getLast_not_ws h)

theorem langParts_trimmed {s : String} : ∀ t ∈ langParts s, t ≠ "" ∧ pyStripStr t = t := by
  intro t ht
  rw [langParts] at ht
  obtain ⟨p, hpf, rfl⟩ := List.mem_map.mp ht
  have hpm := List.mem_of_mem_filter hpf
  have hpne : p.isEmpty = false := by
    have := List.of_mem_filter hpf
    simpa using this
  obtain ⟨q, _, hpq⟩ := List.mem_map.mp hpm
  constructor
  · intro hc
    have hnil : p = [] := congrArg String.data hc
    rw [hnil] at hpne
    simp at hpne
  · show String.mk (pyStrip p) = String.mk p
    rw [← hpq, pyStrip_idem]

theorem broadenStep_mem {c : Bool} {parts variants : List String} {t : String}
    (h : t ∈ broadenStep c parts variants) : t ∈ parts ∨ t ∈ variants := by
  rw [broadenStep] at h
  split at h
  · rcases List.mem_append.mp h with hl | hr
    · exact Or.inl hl
    · exact Or.inr (List.mem_of_mem_filter hr)
  · exact Or.inl h

theorem broadened_mem {s : String} {t : String} (h : t ∈ broadened s) :
    t ∈ langParts s ∨
      t ∈ (["nl", "nl-NL", "*nl*", "fr", "fr-FR", "*fr*",
            "de", "de-DE", "*de*", "es", "es-ES", "*es*"] : List String) := by
  simp only [broadened] at h
  rcases broadenStep_mem h with h3 | hv
  · rcases broadenStep_mem h3 with h2 | hv
    · rcases broadenStep_mem h2 with h1 | hv
      · rcases broadenStep_mem h1 with h0 | hv
        · exact Or.inl h0
        · right; fin_cases hv <;> decide
      · right; fin_cases hv <;> decide
    · right; fin_cases hv <;> decide
  · right; fin_cases hv <;> decide

theorem partsFull_mem {s : String} {t : String} (h : t ∈ partsFull s) :
    t ∈ langParts s ∨
      t ∈ (["nl", "nl-NL", "*nl*", "fr", "fr-FR", "*fr*",
            "de", "de-DE", "*de*", "es", "es-ES", "*es*", "all"] : List String) := by
  rw [partsFull] at h
  split at h
  · rcases broadened_mem h with hl | hv
    · exact Or.inl hl
    · right; fin_cases hv <;> decide
  · rcases List.mem_append.mp h with hb | ha
    · rcases broadened_mem hb with hl | hv
      · exact Or.inl hl
      · right; fin_cases hv <;> decide
    · right
      cases ha with
      | head => decide
      | tail _ hh => cases hh

theorem partsFull_has_all (s : String) : ∃ t ∈ partsFull s, lowerStr t = "all" := by
  rw [partsFull]
  split
  · next hall =>
    rw [hasAllCI] at hall
    have hmm : "all" ∈ (broadened s).map lowerStr := by
      rcases List.contains_iff_exists_mem_beq.mp hall with ⟨x, hx, hbeq⟩
      have hax : "all" = x := by simpa using hbeq
      rw [hax]
      exact hx
    obtain ⟨t, ht, hlow⟩ := List.mem_map.mp hmm
    exact ⟨t, ht, hlow⟩
  · exact ⟨"all", List.mem_append_right _ (List.mem_cons_self _ _), by decide⟩

theorem dedupCIGo_sublist : ∀ (l seen : List String), (dedupCIGo seen l).Sublist l := by
  intro l
  induction l with
  | nil => intro seen; simp [dedupCIGo]
  | cons p r ih =>
    intro seen
    rw [dedupCIGo]
    split
    · exact (ih seen).cons p
    · exact (ih (lowerStr p :: seen)).cons₂ p

theorem dedupCIGo_nodup : ∀ (l seen : List String),
    ((dedupCIGo seen l).map lowerStr).Nodup ∧
      ∀ t ∈ dedupCIGo seen l, seen.contains (lowerStr t) = false := by
  intro l
  induction l with
  | nil => intro seen; simp [dedupCIGo]
  | cons p r ih =>
    intro seen
    rw [dedupCIGo]
    split
    · exact ih seen
    · next hc =>
      obtain ⟨ihn, ihs⟩ := ih (lowerStr p :: seen)
      refine ⟨?_, ?_⟩
      · rw [List.map_cons, List.nodup_cons]
        refine ⟨?_, ihn⟩
        intro hmem
        obtain ⟨u, hu, hlow⟩ := List.mem_map.mp hmem
        have := ihs u hu
        rw [contains_false_iff] at this
        exact this (by rw [hlow]; exact List.mem_cons_self _ _)
      · intro t ht
        rcases List.mem_cons.mp ht with rfl | htl
        · simpa using hc
        · have := ihs t htl
          rw [contains_false_iff] at this ⊢
          intro hm
          exact this (List.mem_cons_of_mem _ hm)

theorem dedupCIGo_first : ∀ (l seen : List String) (t : String), t ∈ dedupCIGo seen l →
    l.find? (fun u => lowerStr u == lowerStr t) = some t := by
  intro l
  induction l with
  | nil => intro seen t h; simp [dedupCIGo] at h
  | cons p r ih =>
    intro seen t ht
    rw [dedupCIGo] at ht
    split at ht
    · next hc =>
      have hts := (dedupCIGo_nodup r seen).2 t ht
      have hne : lowerStr p ≠ lowerStr t := by
        intro he
        rw [he] at hc
        simp at hc
        rw [contains_false_iff] at hts
        exact hts hc
      rw [List.find?_cons_of_neg _ (by simpa using hne)]
      exact ih seen t ht
    · next hc =>
      rcases List.mem_cons.mp ht with rfl | htl
      · exact List.find?_cons_of_pos _ (by simp)
      · have hts := (dedupCIGo_nodup r (lowerStr p :: seen)).2 t htl
        rw [contains_false_iff] at hts
        have hne : lowerStr p ≠ lowerStr t := by
          intro he
          exact hts (by rw [← he]; exact List.mem_cons_self _ _)
        rw [List.find?_cons_of_neg _ (by simpa using hne)]
        exact ih (lowerStr p :: seen) t htl

theorem dedupCIGo_represents : ∀ (l seen : List String) (t : String), t ∈ l →
    seen.contains (lowerStr t) = false →
    ∃ u ∈ dedupCIGo seen l, lowerStr u = lowerStr t := by
  intro l
  induction l with
  | nil => intro seen t h; simp at h
  | cons p r ih =>
    intro seen t ht hseen
    rw [dedupCIGo]
    split
    · next hc =>
      rcases List.mem_cons.mp ht with rfl | htl
      · rw [hseen] at hc
        simp at hc
      · exact ih seen t htl hseen
    · next hc =>
      rcases List.mem_cons.mp ht with rfl | htl
      · exact ⟨t, List.mem_cons_self _ _, rfl⟩
      · by_cases he : lowerStr p = lowerStr t
        · exact ⟨p, List.mem_cons_self _ _, he⟩
        · have hseen2 : (lowerStr p :: seen).contains (lowerStr t) = false := by
            rw [contains_false_iff] at hseen ⊢
            intro hm
            rcases List.mem_cons.mp hm with heq | hm2
            · exact he heq.symm
            · exact hseen hm2
          obtain ⟨u, hu, hlow⟩ := ih (lowerStr p :: seen) t htl hseen2
          exact ⟨u, List.mem_cons_of_mem _ hu, hlow⟩

theorem dedup_append_all : ∀ (l seen : List String),
    (∀ t ∈ l, lowerStr t ≠ "all") → seen.contains "all" = false →
    dedupCIGo seen (l ++ ["all"]) = dedupCIGo seen l ++ ["all"] := by
  intro l
  induction l with
  | nil =>
    intro seen _ hseen
    have hla : lowerStr "all" = "all" := by decide
    simp only [List.nil_append, dedupCIGo, hla, hseen]
    rfl
  | cons p r ih =>
    intro seen hall hseen
    rw [List.cons_append, dedupCIGo, dedupCIGo]
    split
    · exact ih seen (fun t ht => hall t (List.mem_cons_of_mem _ ht)) hseen
    · rw [List.cons_append]
      congr 1
      apply ih (lowerStr p :: seen) (fun t ht => hall t (List.mem_cons_of_mem _ ht))
      rw [contains_false_iff] at hseen ⊢
      intro hm
      rcases List.mem_cons.mp hm with heq | hm2
      · exact hall p (List.mem_cons_self _ _) heq.symm
      · exact hseen hm2

theorem hasAllCI_false {parts : List String} (h : ∀ t ∈ parts, lowerStr t ≠ "all") :
    hasAllCI parts = false := by
  rw [hasAllCI, contains_false_iff]
  intro hm
  obtain ⟨t, ht, hlow⟩ := List.mem_map.mp hm
  exact h t ht hlow

/-- C4: for every input preference string, the normalized list has every
token trimmed and non-empty; no two tokens are equal case-insensitively;
a token lowering to the wildcard all is always present, and when no input
token lowers to all the literal token all sits at the very end; the list
is a subsequence of the pre-dedup token stream partsFull (order
preserved), and each kept token is the first case-insensitive occurrence
in that stream. -/
theorem C4_normalized_preferences (s : String) :
    (∀ t ∈ normalize_langs s, t ≠ "" ∧ pyStripStr t = t) ∧
    ((normalize_langs s).map lowerStr).Nodup ∧
    (∃ t ∈ normalize_langs s, lowerStr t = "all") ∧
    ((∀ t ∈ langParts s, lowerStr t ≠ "all") → (normalize_langs s).getLast? = some "all") ∧
    (s ≠ "" → (normalize_langs s).Sublist (partsFull s)) ∧
    (s ≠ "" → ∀ t ∈ normalize_langs s,
      (partsFull s).find? (fun u => lowerStr u == lowerStr t) = some t) := by
  by_cases hs : s = ""
  · subst hs
    refine ⟨by decide, by decide, by decide, fun _ => by decide,
      fun h => absurd rfl h, fun h => absurd rfl h⟩
  · have hnl : normalize_langs s = dedupCIGo [] (partsFull s) := by
      rw [normalize_langs, if_neg hs]
    refine ⟨?_, ?_, ?_, ?_, ?_, ?_⟩
    · intro t ht
      rw [hnl] at ht
      have hpf := (dedupCIGo_sublist (partsFull s) []).mem ht
      rcases partsFull_mem hpf with hlp | hlit
      · exact langParts_trimmed t hlp
      · fin_cases hlit <;> exact ⟨by decide, by decide⟩
    · rw [hnl]
      exact (dedupCIGo_nodup (partsFull s) []).1
    · rw [hnl]
      obtain ⟨t, ht, hlow⟩ := partsFull_has_all s
      obtain ⟨u, hu, hlowu⟩ := dedupCIGo_represents (partsFull s) [] t ht rfl
      exact ⟨u, hu, by rw [hlowu, hlow]⟩
    · intro hno
      have hb : ∀ t ∈ broadened s, lowerStr t ≠ "all" := by
        intro t ht
        rcases broadened_mem ht with hlp | hv
        · exact hno t hlp
        · fin_cases hv <;> decide
      have hfa : hasAllCI (broadened s) = false := hasAllCI_false hb
      have hpf : partsFull s = broadened s ++ ["all"] := by
        rw [partsFull, hfa]
        rfl
      rw [hnl, hpf, dedup_append_all (broadened s) [] hb rfl]
      exact List.getLast?_concat _
    · intro _
      rw [hnl]
      exact dedupCIGo_sublist (partsFull s) []
    · intro _ t ht
      rw [hnl] at ht
      exact dedupCIGo_first (partsFull s) [] t ht

/-- Witness for C4: a concrete request with duplicate and regional tokens;
the hypotheses of the conditional conjuncts are discharged at it. -/
theorem C4_witness :
    ((normalize_langs " nl , NL ,fr ").getLast? = some "all") ∧
    (normalize_langs " nl , NL ,fr ").Sublist (partsFull " nl , NL ,fr ") ∧
    (∀ t ∈ normalize_langs " nl , NL ,fr ",
      (partsFull " nl , NL ,fr ").find? (fun u => lowerStr u == lowerStr t) = some t) :=
  ⟨(C4_normalized_preferences " nl , NL ,fr ").2.2.2.1 (by decide),
   (C4_normalized_preferences " nl , NL ,fr ").2.2.2.2.1 (by decide),
   (C4_normalized_preferences " nl , NL ,fr ").2.2.2.2.2 (by decide)⟩

/-!
### Claim C5: the flattener is stable under extra blank lines between cue
blocks.

A canonical-format sample is a non-empty list of cue blocks, each a
non-empty list of lines; a line is non-empty, contains no newline, and
starts and ends with a non-whitespace character (index lines, comma
timecode lines and cue text lines all qualify).  The canonical sample
joins blocks with one blank line ("\n\n"); the noisy variant joins them
with k extra newlines, k >= 2 per gap.
-/

/-- A cue block from its lines. -/
def mkBlock (lines : List (List Char)) : List Char :=
  joinSep '\n' lines

/-- Join blocks with per-gap newline runs (2 newlines = one blank line is
the canonical separator; entries of ks give the noisy runs, defaulting to
2 when ks is exhausted). -/
def joinSeps : List (List Char) → List Nat → List Char
  | [], _ => []
  | [b], _ => b
  | b :: b2 :: bs, k :: ks => b ++ List.replicate k '\n' ++ joinSeps (b2 :: bs) ks
  | b :: b2 :: bs, [] => b ++ List.replicate 2 '\n' ++ joinSeps (b2 :: bs) []

/-- A well-formed subtitle line: non-empty, newline-free, no whitespace at
either end. -/
def goodLine (l : List Char) : Bool :=
  (match l.head? with | none => false | some c => !isWS c) &&
  ((match l.getLast? with | none => false | some c => !isWS c) &&
   l.all (fun c => c != '\n'))

theorem goodLine_all {l : List Char} (h : goodLine l = true) :
    l.all (fun c => c != '\n') = true := by
  rw [goodLine, Bool.and_eq_true, Bool.and_eq_true] at h
  exact h.2.2

theorem goodLine_head_cons {l : List Char} (h : goodLine l = true) :
    ∃ d l2, l = d :: l2 ∧ isWS d = false := by
  cases l with
  | nil => simp [goodLine] at h
  | cons c r =>
    rw [goodLine, Bool.and_eq_true, Bool.and_eq_true] at h
    refine ⟨c, r, rfl, ?_⟩
    have h1 := h.1
    simp at h1
    exact h1

theorem goodLine_last {l : List Char} (h : goodLine l = true) :
    ∀ c, l.getLast? = some c → isWS c = false := by
  intro c hc
  rw [goodLine, Bool.and_eq_true, Bool.and_eq_true] at h
  have h2 := h.2.1
  rw [hc] at h2
  simpa using h2

/-- Scanning a newline-free stretch just accumulates it into the current
piece. -/
theorem scan_line : ∀ (l : List Char), l.all (fun c => c != '\n') = true →
    ∀ (out : List (List Char)) (cur t : List Char),
      scanBL none out cur (l ++ t) = scanBL none out (l.reverse ++ cur) t := by
  intro l
  induction l with
  | nil => intro _ out cur t; simp
  | cons c r ih =>
    intro hl out cur t
    rw [List.all_cons, Bool.and_eq_true] at hl
    have hc : ¬ (c = '\n') := by simpa using hl.1
    rw [List.cons_append]
    calc scanBL none out cur (c :: (r ++ t))
        = scanBL none out (c :: cur) (r ++ t) := by
          simp only [scanBL]
          rw [if_neg hc]
      _ = scanBL none out (r.reverse ++ (c :: cur)) t := ih hl.2 out (c :: cur) t
      _ = scanBL none out ((c :: r).reverse ++ cur) t := by
          rw [List.reverse_cons, List.append_assoc, List.singleton_append]

/-- A single newline followed by a non-whitespace character: the run has
only one newline, so it is no blank-line match and the newline joins the
current piece. -/
theorem scan_nl (d : Char) (hd : isWS d = false) :
    ∀ (out : List (List Char)) (cur t : List Char),
      scanBL none out cur ('\n' :: d :: t) = scanBL none out ('\n' :: cur) (d :: t) := by
  intro out cur t
  have hdn : ¬ (d = '\n') := by
    intro h
    rw [h] at hd
    exact absurd hd (by decide)
  simp only [scanBL]
  simp [hdn, hd]

/-- Pushing a non-newline character into an empty current piece. -/
theorem scan_push (d : Char) (hd : isWS d = false) (out : List (List Char)) (t : List Char) :
    scanBL none out [] (d :: t) = scanBL none out [d] t := by
  have hdn : ¬ (d = '\n') := by
    intro h
    rw [h] at hd
    exact absurd hd (by decide)
  simp only [scanBL]
  rw [if_neg hdn]

/-- Inside a whitespace run that already saw its second newline, further
newlines keep the cut point moving; the first non-whitespace character
closes the match at the last newline. -/
theorem scan_sep_aux : ∀ (j : Nat) (runBuf : List Char) (out : List (List Char))
    (cur : List Char) (d : Char) (t : List Char), isWS d = false →
    scanBL (some (runBuf, [], true)) out cur (List.replicate j '\n' ++ d :: t)
      = scanBL none (cur.reverse :: out) [d] t := by
  intro j
  induction j with
  | zero =>
    intro runBuf out cur d t hd
    have hdn : ¬ (d = '\n') := by
      intro h
      rw [h] at hd
      exact absurd hd (by decide)
    simp only [List.replicate, List.nil_append, scanBL]
    simp [hdn, hd]
  | succ j ih =>
    intro runBuf out cur d t hd
    rw [List.replicate_succ, List.cons_append]
    simp only [scanBL, if_true]
    exact ih ('\n' :: runBuf) out cur d t hd

/-- A separator of k >= 2 newlines followed by a non-whitespace character
is a blank-line match: the current piece is emitted and scanning resumes
on the character after the last newline. -/
theorem scan_sep (k : Nat) (hk : 2 ≤ k) (d : Char) (hd : isWS d = false) :
    ∀ (out : List (List Char)) (cur t : List Char),
      scanBL none out cur (List.replicate k '\n' ++ d :: t)
        = scanBL none (cur.reverse :: out) [d] t := by
  obtain ⟨k2, rfl⟩ : ∃ k2, k = k2 + 2 := ⟨k - 2, by omega⟩
  intro out cur t
  rw [show k2 + 2 = (k2 + 1) + 1 from rfl, List.replicate_succ, List.cons_append,
    List.replicate_succ, List.cons_append]
  simp only [scanBL, if_true]
  exact scan_sep_aux k2 _ out cur d t hd

theorem joinSeps_shape (x : List Char) (xs : List (List Char)) (ks : List Nat) :
    ∃ Y, joinSeps (x :: xs) ks = x ++ Y := by
  cases xs with
  | nil => exact ⟨[], by cases ks <;> simp [joinSeps]⟩
  | cons y ys =>
    cases ks with
    | nil =>
      exact ⟨List.replicate 2 '\n' ++ joinSeps (y :: ys) [],
        by simp [joinSeps, List.append_assoc]⟩
    | cons k ks2 =>
      exact ⟨List.replicate k '\n' ++ joinSeps (y :: ys) ks2,
        by simp [joinSeps, List.append_assoc]⟩

theorem mkBlock_head_cons {b : List (List Char)} (hb : b ≠ [])
    (hg : ∀ l ∈ b, goodLine l = true) :
    ∃ d X, mkBlock b = d :: X ∧ isWS d = false := by
  cases b with
  | nil => exact absurd rfl hb
  | cons l ls =>
    obtain ⟨d, l2, hleq, hd⟩ := goodLine_head_cons (hg l (List.mem_cons_self _ _))
    cases ls with
    | nil => exact ⟨d, l2, by rw [show mkBlock [l] = l from rfl, hleq], hd⟩
    | cons l2' ls2 =>
      refine ⟨d, l2 ++ '\n' :: mkBlock (l2' :: ls2), ?_, hd⟩
      rw [show mkBlock (l :: l2' :: ls2) = l ++ '\n' :: mkBlock (l2' :: ls2) from rfl, hleq]
      rfl

theorem joinSeps_head_cons : ∀ (blocks : List (List (List Char))) (ks : List Nat),
    blocks ≠ [] → (∀ b ∈ blocks, b ≠ [] ∧ ∀ l ∈ b, goodLine l = true) →
    ∃ d X, joinSeps (blocks.map mkBlock) ks = d :: X ∧ isWS d = false := by
  intro blocks ks hne hgood
  cases blocks with
  | nil => exact absurd rfl hne
  | cons b bs =>
    have hb := hgood b (List.mem_cons_self _ _)
    obtain ⟨d, X0, hbeq, hd⟩ := mkBlock_head_cons hb.1 hb.2
    obtain ⟨Y, hY⟩ := joinSeps_shape (mkBlock b) (bs.map mkBlock) ks
    refine ⟨d, X0 ++ Y, ?_, hd⟩
    rw [List.map_cons, hY, hbeq]
    rfl

/-- Scanning one whole well-formed block accumulates it into the current
piece: no blank-line match can start inside it. -/
theorem scan_block : ∀ (lines : List (List Char)), lines ≠ [] →
    (∀ l ∈ lines, goodLine l = true) →
    ∀ (out : List (List Char)) (cur t : List Char),
      scanBL none out cur (mkBlock lines ++ t)
        = scanBL none out ((mkBlock lines).reverse ++ cur) t := by
  intro lines
  induction lines with
  | nil => intro h; exact absurd rfl h
  | cons l rest ih =>
    intro _ hgood out cur t
    cases rest with
    | nil => exact scan_line l (goodLine_all (hgood l (List.mem_cons_self _ _))) out cur t
    | cons l2 rest2 =>
      have hall := goodLine_all (hgood l (List.mem_cons_self _ _))
      have hM : mkBlock (l :: l2 :: rest2) = l ++ '\n' :: mkBlock (l2 :: rest2) := rfl
      obtain ⟨d2, X, hX, hd2⟩ : ∃ d2 X, mkBlock (l2 :: rest2) = d2 :: X ∧ isWS d2 = false :=
        mkBlock_head_cons (by simp) (fun l' h' => hgood l' (List.mem_cons_of_mem _ h'))
      rw [hM, List.append_assoc, List.cons_append]
      rw [scan_line l hall]
      rw [hX, List.cons_append]
      rw [scan_nl d2 hd2]
      have hback : d2 :: (X ++ t) = mkBlock (l2 :: rest2) ++ t := by
        rw [hX]
        rfl
      rw [hback]
      rw [ih (by simp) (fun l' h' => hgood l' (List.mem_cons_of_mem _ h'))]
      congr 1
      rw [hX]
      simp [List.reverse_append, List.reverse_cons, List.append_assoc]

theorem joinSeps_step (x y : List Char) (ys : List (List Char)) (ks : List Nat)
    (hks : ∀ k ∈ ks, 2 ≤ k) :
    ∃ K ks2, joinSeps (x :: y :: ys) ks
        = x ++ (List.replicate K '\n' ++ joinSeps (y :: ys) ks2)
      ∧ 2 ≤ K ∧ (∀ k ∈ ks2, 2 ≤ k) := by
  cases ks with
  | nil =>
    refine ⟨2, [], by simp [joinSeps, List.append_assoc], by omega, by simp⟩
  | cons k ks2 =>
    exact ⟨k, ks2, by simp [joinSeps, List.append_assoc],
      hks k (List.mem_cons_self _ _), fun k2 h => hks k2 (List.mem_cons_of_mem _ h)⟩

/-- The full scan of a joined sample: the pieces are exactly the blocks,
whatever the (noisy, k >= 2) separator runs were. -/
theorem scan_join : ∀ (blocks : List (List (List Char))) (ks : List Nat)
    (out : List (List Char)),
    (∀ b ∈ blocks, b ≠ [] ∧ ∀ l ∈ b, goodLine l = true) → blocks ≠ [] →
    (∀ k ∈ ks, 2 ≤ k) →
    scanBL none out [] (joinSeps (blocks.map mkBlock) ks)
      = out.reverse ++ blocks.map mkBlock := by
  intro blocks
  induction blocks with
  | nil => intro ks out _ h _; exact absurd rfl h
  | cons b bs ih =>
    intro ks out hgood _ hks
    have hb := hgood b (List.mem_cons_self _ _)
    cases bs with
    | nil =>
      have hj : joinSeps [mkBlock b] ks = mkBlock b := by cases ks <;> rfl
      rw [List.map_cons, List.map_nil, hj]
      have h1 := scan_block b hb.1 hb.2 out [] []
      rw [List.append_nil] at h1
      rw [h1, List.append_nil]
      show (((mkBlock b).reverse).reverse :: out).reverse = out.reverse ++ [mkBlock b]
      rw [List.reverse_reverse, List.reverse_cons]
    | cons b2 bs2 =>
      simp only [List.map_cons]
      obtain ⟨K, ks2, hjeq, hK2, hks2⟩ :=
        joinSeps_step (mkBlock b) (mkBlock b2) (bs2.map mkBlock) ks hks
      rw [hjeq]
      rw [scan_block b hb.1 hb.2]
      rw [List.append_nil]
      obtain ⟨d, X, hJ, hd⟩ : ∃ d X,
          joinSeps (mkBlock b2 :: bs2.map mkBlock) ks2 = d :: X ∧ isWS d = false := by
        have h2 := joinSeps_head_cons (b2 :: bs2) ks2 (by simp)
          (fun b' h' => hgood b' (List.mem_cons_of_mem _ h'))
        simpa using h2
      rw [hJ, scan_sep K hK2 d hd, List.reverse_reverse, ← scan_push d hd, ← hJ]
      have ihh := ih ks2 (mkBlock b :: out)
        (fun b' h' => hgood b' (List.mem_cons_of_mem _ h')) (by simp) hks2
      simp only [List.map_cons] at ihh
      rw [ihh]
      rw [List.reverse_cons, List.append_assoc, List.singleton_append]

theorem getLast?_append_ne (l l2 : List Char) (h : l2 ≠ []) :
    (l ++ l2).getLast? = l2.getLast? := by
  rw [← List.head?_reverse, List.reverse_append, ← List.head?_reverse]
  cases hrev : l2.reverse with
  | nil => exact absurd (List.reverse_eq_nil_iff.mp hrev) h
  | cons c r => rfl

theorem mkBlock_ne_nil {b : List (List Char)} (hb : b ≠ [])
    (hg : ∀ l ∈ b, goodLine l = true) : mkBlock b ≠ [] := by
  obtain ⟨d, X, h, _⟩ := mkBlock_head_cons hb hg
  rw [h]
  simp

theorem mkBlock_getLast : ∀ (b : List (List Char)), b ≠ [] →
    (∀ l ∈ b, goodLine l = true) →
    ∀ c, (mkBlock b).getLast? = some c → isWS c = false := by
  intro b
  induction b with
  | nil => intro h; exact absurd rfl h
  | cons l rest ih =>
    intro _ hg c hc
    cases rest with
    | nil => exact goodLine_last (hg l (List.mem_cons_self _ _)) c hc
    | cons l2 rest2 =>
      rw [show mkBlock (l :: l2 :: rest2) = l ++ '\n' :: mkBlock (l2 :: rest2) from rfl] at hc
      rw [getLast?_append_ne _ _ (by simp)] at hc
      rw [show ('\n' :: mkBlock (l2 :: rest2)) = ['\n'] ++ mkBlock (l2 :: rest2) from rfl] at hc
      rw [getLast?_append_ne _ _
        (mkBlock_ne_nil (by simp) (fun l' h' => hg l' (List.mem_cons_of_mem _ h')))] at hc
      exact ih (by simp) (fun l' h' => hg l' (List.mem_cons_of_mem _ h')) c hc

theorem joinSeps_getLast : ∀ (blocks : List (List (List Char))) (ks : List Nat),
    (∀ b ∈ blocks, b ≠ [] ∧ ∀ l ∈ b, goodLine l = true) → blocks ≠ [] →
    (∀ k ∈ ks, 2 ≤ k) →
    ∀ c, (joinSeps (blocks.map mkBlock) ks).getLast? = some c → isWS c = false := by
  intro blocks
  induction blocks with
  | nil => intro ks _ h; exact absurd rfl h
  | cons b bs ih =>
    intro ks hgood _ hks c hc
    have hb := hgood b (List.mem_cons_self _ _)
    cases bs with
    | nil =>
      have hj : joinSeps [mkBlock b] ks = mkBlock b := by cases ks <;> rfl
      rw [List.map_cons, List.map_nil, hj] at hc
      exact mkBlock_getLast b hb.1 hb.2 c hc
    | cons b2 bs2 =>
      simp only [List.map_cons] at hc
      obtain ⟨K, ks2, hjeq, hK2, hks2⟩ :=
        joinSeps_step (mkBlock b) (mkBlock b2) (bs2.map mkBlock) ks hks
      rw [hjeq] at hc
      obtain ⟨d, X, hJ, hd⟩ : ∃ d X,
          joinSeps (mkBlock b2 :: bs2.map mkBlock) ks2 = d :: X ∧ isWS d = false := by
        have h2 := joinSeps_head_cons (b2 :: bs2) ks2 (by simp)
          (fun b' h' => hgood b' (List.mem_cons_of_mem _ h'))
        simpa using h2
      have hJne : joinSeps (mkBlock b2 :: bs2.map mkBlock) ks2 ≠ [] := by
        rw [hJ]
        simp
      rw [getLast?_append_ne _ _ (by simp [hJne])] at hc
      rw [getLast?_append_ne _ _ hJne] at hc
      have ihh := ih ks2 (fun b' h' => hgood b' (List.mem_cons_of_mem _ h')) (by simp) hks2 c
      simp only [List.map_cons] at ihh
      exact ihh hc

theorem strip_joinSeps (blocks : List (List (List Char))) (ks : List Nat)
    (hgood : ∀ b ∈ blocks, b ≠ [] ∧ ∀ l ∈ b, goodLine l = true)
    (hne : blocks ≠ []) (hks : ∀ k ∈ ks, 2 ≤ k) :
    pyStrip (joinSeps (blocks.map mkBlock) ks) = joinSeps (blocks.map mkBlock) ks := by
  apply pyStrip_eq_self
  · intro c hc
    obtain ⟨d, X, hJ, hd⟩ := joinSeps_head_cons blocks ks hne hgood
    rw [hJ] at hc
    cases hc
    exact hd
  · exact joinSeps_getLast blocks ks hgood hne hks

theorem split_joinSeps (blocks : List (List (List Char))) (ks : List Nat)
    (hgood : ∀ b ∈ blocks, b ≠ [] ∧ ∀ l ∈ b, goodLine l = true)
    (hne : blocks ≠ []) (hks : ∀ k ∈ ks, 2 ≤ k) :
    splitBlankLines (joinSeps (blocks.map mkBlock) ks) = blocks.map mkBlock := by
  rw [splitBlankLines, scan_join blocks ks [] hgood hne hks]
  rfl

/-- C5: flattening a canonical-format sample (blank-line separated
well-formed cue blocks) with keepTimestamps=false yields output identical
to flattening the same sample with extra blank lines inserted between cue
blocks (separator runs of k >= 2 newlines): the blank-line split yields
the same blocks either way, and everything downstream is a function of
the blocks. -/
theorem C5_flatten_stable_under_blank_line_noise
    (blocks : List (List (List Char))) (ks : List Nat)
    (hgood : ∀ b ∈ blocks, b ≠ [] ∧ ∀ l ∈ b, goodLine l = true)
    (hne : blocks ≠ []) (hks : ∀ k ∈ ks, 2 ≤ k) :
    clean_srt_to_text (String.mk (joinSeps (blocks.map mkBlock) ks)) false
      = clean_srt_to_text (String.mk (joinSeps (blocks.map mkBlock) [])) false := by
  show String.mk (clean_chars (joinSeps (blocks.map mkBlock) ks) false)
      = String.mk (clean_chars (joinSeps (blocks.map mkBlock) []) false)
  congr 1
  simp only [clean_chars]
  rw [strip_joinSeps blocks ks hgood hne hks,
    strip_joinSeps blocks [] hgood hne (by simp),
    split_joinSeps blocks ks hgood hne hks,
    split_joinSeps blocks [] hgood hne (by simp)]

/-- Witness for C5: a concrete two-cue SRT sample; inserting an extra
blank line (a run of three newlines) between the cue blocks leaves the
flat text unchanged. -/
theorem C5_witness :
    clean_srt_to_text (String.mk (joinSeps
      ([[("1" : String).data, ("00:00:01,000 --> 00:00:02,000" : String).data,
         ("Hello hello" : String).data],
        [("2" : String).data, ("00:00:03,000 --> 00:00:04,500" : String).data,
         ("world , yes" : String).data]].map mkBlock) [3])) false
      = clean_srt_to_text (String.mk (joinSeps
      ([[("1" : String).data, ("00:00:01,000 --> 00:00:02,000" : String).data,
         ("Hello hello" : String).data],
        [("2" : String).data, ("00:00:03,000 --> 00:00:04,500" : String).data,
         ("world , yes" : String).data]].map mkBlock) [])) false :=
  C5_flatten_stable_under_blank_line_noise
    [[("1" : String).data, ("00:00:01,000 --> 00:00:02,000" : String).data,
      ("Hello hello" : String).data],
     [("2" : String).data, ("00:00:03,000 --> 00:00:04,500" : String).data,
      ("world , yes" : String).data]] [3] (by decide) (by decide) (by decide)

end Vidalchemy
